import Mathlib

/-!
Verification of the OpenRouter key-pool component
(`src/shared/key-management/openrouter/provider.ts` and the key checker in
`src/shared/key-management/openrouter/checker.ts`).

The pool state is a list of key records.  JavaScript mutates records in
place; here every operation is a pure function from pool state to pool
state.  `Date.now()` is an explicit `now : Nat` argument (milliseconds).
JS numbers used for balances are modelled as `Option Int`: the provider
constructor leaves `balance` undefined, so a key that the checker has not
yet updated carries `none`, and the JS `>` comparison — which is false
whenever either operand is `undefined` (NaN semantics) — is modelled by
`balGt`.  The constructor also leaves `isFreeTier` undefined; the filters
only test its truthiness, so it is modelled by its falsy value `false`.
-/

namespace Openrouter

/-- Per-family token totals: the `{ input, output }` objects stored in a
key's `tokenUsage` map. -/
structure TokenCount where
  input : Nat
  output : Nat
deriving DecidableEq, Repr

/-- List with explicit indices, mirroring iteration over a JS array while
remembering each element's position.  `enumFrom n l` pairs the elements of
`l` with indices `n, n+1, ...`. -/
def enumFrom {α : Type} (n : Nat) : List α → List (Nat × α)
  | [] => []
  | a :: as => (n, a) :: enumFrom (n + 1) as

/-- In-place mutation of the array element at a given index. -/
def modifyIdx {α : Type} (f : α → α) : List α → Nat → List α
  | [], _ => []
  | a :: as, 0 => f a :: as
  | a :: as, n + 1 => a :: modifyIdx f as n

/-- `this.keys.find(k => k.hash === h)` followed by in-place mutation of
the found record: rewrites the first element whose hash matches. -/
def updByHash {α : Type} (hashOf : α → String) (f : α → α) (h : String) :
    List α → List α
  | [] => []
  | a :: as => if hashOf a == h then f a :: as else a :: updByHash hashOf f h as

/-- The JS `>` on balances.  A comparison in which either operand is
`undefined` evaluates to false (NaN semantics), so the conditional keeps
the accumulator only when both balances are numbers and the
accumulator's is strictly greater. -/
def balGt : Option Int → Option Int → Bool
  | some x, some y => decide (x > y)
  | _, _ => false

/-- The `reduce((prev, current) => prev.balance > current.balance ? prev
: current)` accumulator: keeps the accumulator exactly when the
comparison holds, so the current element wins on ties and on any
comparison involving an undefined balance. -/
def pickBy {α : Type} (gt : α → α → Bool) : α → List α → α
  | acc, [] => acc
  | acc, a :: as => pickBy gt (if gt acc a then acc else a) as

/-- Reading `key.tokenUsage[family]`, with the absent bucket read as
zero totals. -/
def lookupUsage (family : String) : List (String × TokenCount) → TokenCount
  | [] => ⟨0, 0⟩
  | (f, c) :: rest => if f == family then c else lookupUsage family rest

/-- The body of `incrementUsage` on the `tokenUsage` map: create the
family bucket at `{input: 0, output: 0}` on first use, then add the
usage amounts. -/
def bumpUsage (family : String) (usage : TokenCount) :
    List (String × TokenCount) → List (String × TokenCount)
  | [] => [(family, ⟨usage.input, usage.output⟩)]
  | (f, c) :: rest =>
    if f == family then
      (f, ⟨c.input + usage.input, c.output + usage.output⟩) :: rest
    else
      (f, c) :: bumpUsage family usage rest

/-- An `OpenrouterKey` record (provider.ts).  `key` is the secret,
`hash` its public identifier. -/
structure OpenrouterKey where
  key : String
  service : String
  modelFamilies : List String
  isDisabled : Bool
  isRevoked : Bool
  promptCount : Nat
  lastUsed : Nat
  lastChecked : Nat
  hash : String
  rateLimitedAt : Nat
  rateLimitedUntil : Nat
  tokenUsage : List (String × TokenCount)
  isOverQuota : Bool
  isFreeTier : Bool
  balance : Option Int
deriving DecidableEq, Repr

/-- The record pushed by the provider constructor for one configured
secret.  The constructor omits `isFreeTier` and `balance`; at runtime
both are `undefined`: the filters only test the truthiness of
`isFreeTier`, so it is modelled as `false`, while the undefined balance
is modelled as `none`, with `balGt` rendering the JS comparison
semantics (false whenever either side is `undefined`). -/
def mkKey (secret h : String) : OpenrouterKey :=
  { key := secret
    service := "openrouter"
    modelFamilies := ["openrouter"]
    isDisabled := false
    isRevoked := false
    promptCount := 0
    lastUsed := 0
    lastChecked := 0
    hash := h
    rateLimitedAt := 0
    rateLimitedUntil := 0
    tokenUsage := []
    isOverQuota := false
    isFreeTier := false
    balance := none }

/-- The pool: the provider's `this.keys` array. -/
structure Pool where
  keys : List OpenrouterKey
deriving DecidableEq, Repr

/-- Pool construction from the configured secrets (already split on
commas and trimmed); empty entries are skipped (`if (!key) continue`).
`hashKey` abstracts the sha256 hex digest. -/
def mkPool (hashKey : String → String) (secrets : List String) : Pool :=
  ⟨(secrets.filter (fun s => s ≠ "")).map (fun s => mkKey s (hashKey s))⟩

/-- `RATE_LIMIT_LOCKOUT` (ms). -/
def RATE_LIMIT_LOCKOUT : Nat := 2000

/-- `KEY_REUSE_DELAY` (ms). -/
def KEY_REUSE_DELAY : Nat := 500

/-- The hard-coded list in `isFreeModel`. -/
def freeModels : List String :=
  [ "mistralai/mistral-7b-instruct:free"
  , "google/gemma-2-9b-it:free"
  , "mistralai/mistral-nemo:free"
  , "meta-llama/llama-3.1-405b-instruct:free"
  , "qwen/qwen-2.5-72b-instruct:free"
  , "meta-llama/llama-3.2-3b-instruct:free"
  , "qwen/qwen-2.5-coder-32b-instruct:free"
  , "meta-llama/llama-3.3-70b-instruct:free"
  , "deepseek/deepseek-r1:free"
  , "google/gemini-2.0-flash-exp:free"
  , "deepseek/deepseek-r1-distill-llama-70b:free"
  , "deepseek/deepseek-r1-distill-qwen-14b:free"
  , "mistralai/mistral-small-24b-instruct-2501:free"
  , "qwen/qwen2.5-vl-72b-instruct:free"
  , "cognitivecomputations/dolphin3.0-mistral-24b:free"
  , "cognitivecomputations/dolphin3.0-r1-mistral-24b:free"
  , "nousresearch/deephermes-3-llama-3-8b-preview:free"
  , "qwen/qwq-32b:free"
  , "google/gemma-3-27b-it:free"
  , "rekaai/reka-flash-3:free"
  , "google/gemma-3-12b-it:free"
  , "google/gemma-3-4b-it:free"
  , "mistralai/mistral-small-3.1-24b-instruct:free"
  , "deepseek/deepseek-chat-v3-0324:free"
  , "qwen/qwen2.5-vl-32b-instruct:free"
  , "meta-llama/llama-4-scout:free"
  , "meta-llama/llama-4-maverick:free"
  , "nvidia/llama-3.1-nemotron-ultra-253b-v1:free"
  , "moonshotai/kimi-vl-a3b-thinking:free"
  , "agentica-org/deepcoder-14b-preview:free"
  , "arliai/qwq-32b-arliai-rpr-v1:free"
  , "shisa-ai/shisa-v2-llama3.3-70b:free"
  , "microsoft/mai-ds-r1:free"
  , "tngtech/deepseek-r1t-chimera:free"
  , "qwen/qwen3-235b-a22b:free"
  , "qwen/qwen3-14b:free"
  , "qwen/qwen3-8b:free"
  , "qwen/qwen3-30b-a3b:free"
  , "qwen/qwen3-4b:free"
  , "meta-llama/llama-3.3-8b-instruct:free"
  , "google/gemma-3n-e4b-it:free"
  , "mistralai/devstral-small-2505:free"
  , "deepseek/deepseek-r1-0528:free"
  , "deepseek/deepseek-r1-0528-qwen3-8b:free"
  , "moonshotai/kimi-dev-72b:free"
  , "mistralai/mistral-small-3.2-24b-instruct:free"
  , "tngtech/deepseek-r1t2-chimera:free"
  , "tencent/hunyuan-a13b-instruct:free"
  , "google/gemma-3n-e2b-it:free"
  , "cognitivecomputations/dolphin-mistral-24b-venice-edition:free"
  , "moonshotai/kimi-k2:free"
  , "qwen/qwen3-coder:free"
  , "z-ai/glm-4.5-air:free"
  , "openai/gpt-oss-20b:free"
  , "openai/gpt-oss-120b:free"
  , "deepseek/deepseek-chat-v3.1:free"
  , "google/gemini-2.5-flash-image-preview:free" ]

/-- `isFreeModel(model)`: membership in the hard-coded list. -/
def isFreeModel (model : String) : Bool :=
  freeModels.contains model

/-- The filtering phase of `get()`, keeping the index of each surviving
record in `this.keys`: first drop disabled keys, then narrow by tier.
For a free model, prefer free-tier non-over-quota keys but fall back to
all non-disabled keys when there are none; for a paid model keep only
paid non-over-quota keys. -/
def eligiblePairs (keys : List OpenrouterKey) (model : String) :
    List (Nat × OpenrouterKey) :=
  let avail := (enumFrom 0 keys).filter (fun q => !q.2.isDisabled)
  if isFreeModel model then
    let freeKeys := avail.filter (fun q => q.2.isFreeTier && !q.2.isOverQuota)
    if freeKeys.length > 0 then freeKeys else avail
  else
    avail.filter (fun q => !q.2.isFreeTier && !q.2.isOverQuota)

/-- The comparison inside the reduce of `get()`:
`prev.balance > current.balance` under JS semantics. -/
def keyGt (r s : Nat × OpenrouterKey) : Bool :=
  balGt r.2.balance s.2.balance

/-- The private `throttle(hash)`: stamps `rateLimitedAt = now` and raises
`rateLimitedUntil` to at least `now + KEY_REUSE_DELAY` on the first
record with the given hash. -/
def throttleKeys (keys : List OpenrouterKey) (h : String) (now : Nat) :
    List OpenrouterKey :=
  updByHash (fun k => k.hash)
    (fun k =>
      { k with
        rateLimitedAt := now
        rateLimitedUntil := max k.rateLimitedUntil (now + KEY_REUSE_DELAY) })
    h keys

/-- `get(model)`.  Returns the thrown-error case as `.error ()` with the
pool untouched; on success the selected record gets `lastUsed = now`,
is throttled, and a copy of the updated record is returned together with
the new pool state. -/
def get (p : Pool) (model : String) (now : Nat) :
    Except Unit OpenrouterKey × Pool :=
  match eligiblePairs p.keys model with
  | [] => (Except.error (), p)
  | q :: qs =>
    let sel := pickBy keyGt q qs
    let keys1 := modifyIdx (fun k => { k with lastUsed := now }) p.keys sel.1
    let keys2 := throttleKeys keys1 sel.2.hash now
    (Except.ok (keys2.getD sel.1 sel.2), ⟨keys2⟩)

/-- The `Partial<OpenrouterKey>` payloads actually passed to `update` by
the checker and by `recheck`: absent fields are `none`. -/
structure KeyUpdate where
  isDisabled : Option Bool := none
  isRevoked : Option Bool := none
  isOverQuota : Option Bool := none
  isFreeTier : Option Bool := none
  lastChecked : Option Nat := none
  balance : Option (Option Int) := none
deriving DecidableEq, Repr

/-- `Object.assign(key, update)` for the payloads above. -/
def applyUpdate (u : KeyUpdate) (k : OpenrouterKey) : OpenrouterKey :=
  { k with
    isDisabled := u.isDisabled.getD k.isDisabled
    isRevoked := u.isRevoked.getD k.isRevoked
    isOverQuota := u.isOverQuota.getD k.isOverQuota
    isFreeTier := u.isFreeTier.getD k.isFreeTier
    lastChecked := u.lastChecked.getD k.lastChecked
    balance := u.balance.getD k.balance }

/-- `update(hash, update)`: merge into the first record with the given
hash; silently a no-op when no record matches. -/
def update (p : Pool) (h : String) (u : KeyUpdate) : Pool :=
  ⟨updByHash (fun k => k.hash) (applyUpdate u) h p.keys⟩

/-- `incrementUsage(keyHash, modelFamily, usage)`: `promptCount++` plus
the token accumulation, on the first record with the given hash; a
silent no-op when no record matches. -/
def incrementUsage (p : Pool) (keyHash family : String) (usage : TokenCount) :
    Pool :=
  ⟨updByHash (fun k => k.hash)
    (fun k =>
      { k with
        promptCount := k.promptCount + 1
        tokenUsage := bumpUsage family usage k.tokenUsage })
    keyHash p.keys⟩

/-- `disable(key)`: look the record up by the argument's hash and set
`isDisabled`; a silent no-op when no record matches. -/
def disable (p : Pool) (key : OpenrouterKey) : Pool :=
  ⟨updByHash (fun k => k.hash) (fun k => { k with isDisabled := true })
    key.hash p.keys⟩

/-- `available()`. -/
def available (p : Pool) : Nat :=
  (p.keys.filter (fun k => !k.isDisabled)).length

/-- `markRateLimited(keyHash)`.  The source dereferences
`this.keys.find(...)!`, so a missing hash is a runtime error, modelled as
`none`. -/
def markRateLimited (p : Pool) (keyHash : String) (now : Nat) : Option Pool :=
  if p.keys.any (fun k => k.hash == keyHash) then
    some ⟨updByHash (fun k => k.hash)
      (fun k =>
        { k with
          rateLimitedAt := now
          rateLimitedUntil := now + RATE_LIMIT_LOCKOUT })
      keyHash p.keys⟩
  else
    none

/-- The payload `recheck()` merges into every key. -/
def recheckUpdate : KeyUpdate :=
  { isOverQuota := some false, isDisabled := some false, lastChecked := some 0 }

/-- `recheck()`: when the checker is enabled, merge `recheckUpdate` into
every key (iterating `update` over each key's hash); otherwise a no-op.
The asynchronous re-validation it also kicks off is a separate checker
step. -/
def recheck (checkerEnabled : Bool) (p : Pool) : Pool :=
  if checkerEnabled then
    (p.keys.map (fun k => k.hash)).foldl (fun q h => update q h recheckUpdate) p
  else
    p

/-- The checker's classification of one key (checker.ts). -/
inductive CheckResult where
  | valid
  | invalid
  | quota
deriving DecidableEq, Repr

/-- `handleCheckResult`: the three `update` payloads the checker feeds
back into the pool. -/
def handleCheckResult (p : Pool) (keyHash : String) (result : CheckResult)
    (now : Nat) : Pool :=
  match result with
  | CheckResult.valid =>
    update p keyHash { isDisabled := some false, lastChecked := some now }
  | CheckResult.invalid =>
    update p keyHash
      { isDisabled := some true, isRevoked := some true, lastChecked := some now }
  | CheckResult.quota =>
    update p keyHash
      { isDisabled := some true, isOverQuota := some true, lastChecked := some now }

/-- The classification inside `validateKey`: `keyInfoStatus` is the HTTP
status of the GET on `/api/v1/key`, `testStatus` the status of the test
completion request.  Statuses 200/400 are valid, 429 is treated as
quota, 403 and everything else as invalid. -/
def classifyProbe (keyInfoStatus testStatus : Nat) : CheckResult :=
  if keyInfoStatus ≠ 200 then CheckResult.invalid
  else if testStatus == 200 || testStatus == 400 then CheckResult.valid
  else if testStatus == 429 then CheckResult.quota
  else if testStatus == 403 then CheckResult.invalid
  else CheckResult.invalid

/-- One complete successful `checkKey` round: classify the probe
responses and apply `handleCheckResult`. -/
def checkKeyOutcome (p : Pool) (keyHash : String)
    (keyInfoStatus testStatus now : Nat) : Pool :=
  handleCheckResult p keyHash (classifyProbe keyInfoStatus testStatus) now

/-- One observable pool transition: any public mutator, a checker
result, or a manual recheck. -/
inductive Step : Pool → Pool → Prop where
  | getStep (model : String) (now : Nat) (p : Pool) : Step p (get p model now).2
  | mark (keyHash : String) (now : Nat) (p p' : Pool) :
      markRateLimited p keyHash now = some p' → Step p p'
  | usage (keyHash family : String) (u : TokenCount) (p : Pool) :
      Step p (incrementUsage p keyHash family u)
  | disableStep (k : OpenrouterKey) (p : Pool) : Step p (disable p k)
  | check (keyHash : String) (r : CheckResult) (now : Nat) (p : Pool) :
      Step p (handleCheckResult p keyHash r now)
  | recheckStep (b : Bool) (p : Pool) : Step p (recheck b p)

/-- Pool states reachable from construction by the operations above. -/
def Reachable (hashKey : String → String) (secrets : List String) (p : Pool) :
    Prop :=
  Relation.ReflTransGen Step (mkPool hashKey secrets) p

end Openrouter

namespace Openrouter

theorem enumFrom_getElem? {α : Type} {l : List α} :
    ∀ {n i : Nat} {a : α}, (i, a) ∈ enumFrom n l → ∃ j, i = n + j ∧ l[j]? = some a := by
  induction l with
  | nil => intro n i a h; simp [enumFrom] at h
  | cons b bs ih =>
    intro n i a h
    simp only [enumFrom, List.mem_cons] at h
    rcases h with h | h
    · rcases Prod.mk.injEq .. ▸ h with ⟨h1, h2⟩
      exact ⟨0, by omega, by simp [h2.symm, List.getElem?_cons_zero]⟩
    · rcases ih h with ⟨j, hj1, hj2⟩
      exact ⟨j + 1, by omega, by simpa [List.getElem?_cons_succ] using hj2⟩

theorem enumFrom_of_getElem? {α : Type} {l : List α} :
    ∀ {n j : Nat} {a : α}, l[j]? = some a → (n + j, a) ∈ enumFrom n l := by
  induction l with
  | nil => intro n j a h; simp at h
  | cons b bs ih =>
    intro n j a h
    match j with
    | 0 =>
      rw [List.getElem?_cons_zero] at h
      simp only [enumFrom, List.mem_cons]
      exact Or.inl (by rw [Nat.add_zero]; rw [(Option.some.inj h)])
    | j' + 1 =>
      rw [List.getElem?_cons_succ] at h
      simp only [enumFrom, List.mem_cons]
      right
      exact (by omega : n + 1 + j' = n + (j' + 1)) ▸ @ih (n + 1) j' a h

theorem enumFrom_map {α β : Type} (v : α → β) (l : List α) :
    ∀ n, enumFrom n (l.map v) = (enumFrom n l).map (fun q => (q.1, v q.2)) := by
  induction l with
  | nil => intro n; rfl
  | cons a as ih => intro n; simp [enumFrom, ih]

theorem filter_map_view {α β : Type} (v : α → β) (pr : β → Bool) :
    ∀ {l l' : List α}, l.map v = l'.map v →
      (l.filter (fun a => pr (v a))).map v = (l'.filter (fun a => pr (v a))).map v := by
  intro l
  induction l with
  | nil =>
    intro l' h
    have : l' = [] := by
      cases l' with
      | nil => rfl
      | cons b bs => simp at h
    simp [this]
  | cons a as ih =>
    intro l' h
    cases l' with
    | nil => simp at h
    | cons b bs =>
      simp only [List.map_cons, List.cons.injEq] at h
      rcases h with ⟨h1, h2⟩
      simp only [List.filter_cons, h1]
      cases hpr : pr (v b) with
      | true => simp [h1, hpr, ih h2]
      | false => simp [h1, hpr, ih h2]

theorem pickBy_view {α β : Type} (v : α → β) (gt : α → α → Bool) (g : β → β → Bool)
    (hb : ∀ a b, gt a b = g (v a) (v b)) :
    ∀ {l l' : List α} {acc acc' : α}, v acc = v acc' → l.map v = l'.map v →
      v (pickBy gt acc l) = v (pickBy gt acc' l') := by
  intro l
  induction l with
  | nil =>
    intro l' acc acc' hacc h
    cases l' with
    | nil => exact hacc
    | cons b bs => simp at h
  | cons a as ih =>
    intro l' acc acc' hacc h
    cases l' with
    | nil => simp at h
    | cons b bs =>
      simp only [List.map_cons, List.cons.injEq] at h
      rcases h with ⟨h1, h2⟩
      simp only [pickBy]
      apply ih _ h2
      have hgtEq : gt acc a = gt acc' b := by rw [hb, hb, hacc, h1]
      by_cases hgt : gt acc a = true
      · rw [if_pos hgt, if_pos (by rw [← hgtEq]; exact hgt)]
        exact hacc
      · rw [if_neg hgt, if_neg (by rw [← hgtEq]; exact hgt)]
        exact h1

theorem pickBy_mem {α : Type} (gt : α → α → Bool) :
    ∀ (l : List α) (acc : α), pickBy gt acc l = acc ∨ pickBy gt acc l ∈ l := by
  intro l
  induction l with
  | nil => intro acc; left; rfl
  | cons a as ih =>
    intro acc
    simp only [pickBy]
    by_cases hgt : gt acc a = true
    · rw [if_pos hgt]
      rcases ih acc with h | h
      · left; exact h
      · right; exact List.mem_cons_of_mem a h
    · rw [if_neg hgt]
      rcases ih a with h | h
      · right; rw [h]; exact List.mem_cons_self a as
      · right; exact List.mem_cons_of_mem a h

theorem updByHash_map_view {α β : Type} (v : α → β) (hashOf : α → String)
    (f : α → α) (hf : ∀ a, v (f a) = v a) (h : String) :
    ∀ (l : List α), (updByHash hashOf f h l).map v = l.map v := by
  intro l
  induction l with
  | nil => rfl
  | cons a as ih =>
    simp only [updByHash]
    by_cases hh : hashOf a == h
    · rw [if_pos hh]; simp [hf]
    · rw [if_neg hh]; simp [ih]

theorem modifyIdx_map_view {α β : Type} (v : α → β) (f : α → α)
    (hf : ∀ a, v (f a) = v a) :
    ∀ (l : List α) (i : Nat), (modifyIdx f l i).map v = l.map v := by
  intro l
  induction l with
  | nil => intro i; rfl
  | cons a as ih =>
    intro i
    match i with
    | 0 => simp [modifyIdx, hf]
    | i' + 1 => simp [modifyIdx, ih]

theorem map_view_getElem? {α β : Type} (v : α → β) {l l' : List α}
    (hmap : l.map v = l'.map v) {i : Nat} {a : α} (hi : l[i]? = some a) :
    ∃ b, l'[i]? = some b ∧ v b = v a := by
  have h1 : (l'.map v)[i]? = some (v a) := by
    rw [← hmap, List.getElem?_map, hi]; rfl
  rw [List.getElem?_map] at h1
  cases hb : l'[i]? with
  | none => rw [hb] at h1; simp at h1
  | some b =>
    rw [hb] at h1
    exact ⟨b, rfl, Option.some.inj h1⟩

theorem updByHash_find? {α : Type} (hashOf : α → String) (f : α → α)
    (hf : ∀ a, hashOf (f a) = hashOf a) (h : String) :
    ∀ (l : List α), (updByHash hashOf f h l).find? (fun a => hashOf a == h) =
      (l.find? (fun a => hashOf a == h)).map f := by
  intro l
  induction l with
  | nil => rfl
  | cons a as ih =>
    simp only [updByHash]
    by_cases hh : hashOf a == h
    · rw [if_pos hh]
      have hh2 : (hashOf (f a) == h) = true := by rw [hf]; exact hh
      simp only [List.find?, hh, hh2, Option.map_some]
      rfl
    · rw [if_neg hh]
      simp only [List.find?, Bool.of_not_eq_true hh]
      exact ih

theorem updByHash_id {α : Type} (hashOf : α → String) (f : α → α) (h : String) :
    ∀ (l : List α), (∀ a ∈ l, hashOf a ≠ h) → updByHash hashOf f h l = l := by
  intro l
  induction l with
  | nil => intro _; rfl
  | cons a as ih =>
    intro hno
    simp only [updByHash]
    rw [if_neg (by simp [hno a (List.mem_cons_self a as)])]
    rw [ih (fun b hb => hno b (List.mem_cons_of_mem a hb))]

theorem updByHash_mem {α : Type} (hashOf : α → String) (f : α → α) (h : String) :
    ∀ {l : List α} {b : α}, b ∈ updByHash hashOf f h l →
      b ∈ l ∨ ∃ a, a ∈ l ∧ b = f a := by
  intro l
  induction l with
  | nil => intro b hb; simp [updByHash] at hb
  | cons a as ih =>
    intro b hb
    simp only [updByHash] at hb
    by_cases hh : hashOf a == h
    · rw [if_pos hh] at hb
      rcases List.mem_cons.mp hb with h1 | h1
      · exact Or.inr ⟨a, List.mem_cons_self a as, h1⟩
      · exact Or.inl (List.mem_cons_of_mem a h1)
    · rw [if_neg hh] at hb
      rcases List.mem_cons.mp hb with h1 | h1
      · exact Or.inl (h1 ▸ List.mem_cons_self a as)
      · rcases ih h1 with h2 | ⟨c, hc1, hc2⟩
        · exact Or.inl (List.mem_cons_of_mem a h2)
        · exact Or.inr ⟨c, List.mem_cons_of_mem a hc1, hc2⟩

theorem modifyIdx_mem {α : Type} (f : α → α) :
    ∀ {l : List α} {i : Nat} {b : α}, b ∈ modifyIdx f l i →
      b ∈ l ∨ ∃ a, a ∈ l ∧ b = f a := by
  intro l
  induction l with
  | nil => intro i b hb; simp [modifyIdx] at hb
  | cons a as ih =>
    intro i b hb
    match i with
    | 0 =>
      simp only [modifyIdx] at hb
      rcases List.mem_cons.mp hb with h1 | h1
      · exact Or.inr ⟨a, List.mem_cons_self a as, h1⟩
      · exact Or.inl (List.mem_cons_of_mem a h1)
    | i' + 1 =>
      simp only [modifyIdx] at hb
      rcases List.mem_cons.mp hb with h1 | h1
      · exact Or.inl (h1 ▸ List.mem_cons_self a as)
      · rcases ih h1 with h2 | ⟨c, hc1, hc2⟩
        · exact Or.inl (List.mem_cons_of_mem a h2)
        · exact Or.inr ⟨c, List.mem_cons_of_mem a hc1, hc2⟩

theorem updByHash_forall₂ {α : Type} (R : α → α → Prop) (hashOf : α → String)
    (f : α → α) (hrefl : ∀ a, R a a) (hf : ∀ a, R a (f a)) (h : String) :
    ∀ (l : List α), List.Forall₂ R l (updByHash hashOf f h l) := by
  intro l
  induction l with
  | nil => exact List.Forall₂.nil
  | cons a as ih =>
    simp only [updByHash]
    by_cases hh : hashOf a == h
    · rw [if_pos hh]
      exact List.Forall₂.cons (hf a) (List.forall₂_same.mpr (fun x _ => hrefl x))
    · rw [if_neg hh]
      exact List.Forall₂.cons (hrefl a) ih

theorem modifyIdx_forall₂ {α : Type} (R : α → α → Prop) (f : α → α)
    (hrefl : ∀ a, R a a) (hf : ∀ a, R a (f a)) :
    ∀ (l : List α) (i : Nat), List.Forall₂ R l (modifyIdx f l i) := by
  intro l
  induction l with
  | nil => intro i; exact List.Forall₂.nil
  | cons a as ih =>
    intro i
    match i with
    | 0 =>
      exact List.Forall₂.cons (hf a) (List.forall₂_same.mpr (fun x _ => hrefl x))
    | i' + 1 =>
      exact List.Forall₂.cons (hrefl a) (ih i')

theorem forall₂_getElem? {α β : Type} {R : α → β → Prop} :
    ∀ {l : List α} {l' : List β}, List.Forall₂ R l l' →
      ∀ {i : Nat} {a : α} {b : β}, l[i]? = some a → l'[i]? = some b → R a b := by
  intro l l' hfa
  induction hfa with
  | nil => intro i a b ha _; simp at ha
  | cons hR _ ih =>
    intro i a b ha hb
    match i with
    | 0 =>
      rw [List.getElem?_cons_zero] at ha hb
      rw [← Option.some.inj ha, ← Option.some.inj hb]
      exact hR
    | i' + 1 =>
      rw [List.getElem?_cons_succ] at ha hb
      exact ih ha hb

theorem modifyIdx_getElem?_self {α : Type} (f : α → α) :
    ∀ (l : List α) (i : Nat), (modifyIdx f l i)[i]? = Option.map f l[i]? := by
  intro l
  induction l with
  | nil => intro i; simp [modifyIdx]
  | cons a as ih =>
    intro i
    match i with
    | 0 => simp [modifyIdx]
    | i' + 1 => simp only [modifyIdx, List.getElem?_cons_succ]; exact ih i'

theorem find?_of_nodup_getElem? {α : Type} (hashOf : α → String) :
    ∀ {l : List α}, (l.map hashOf).Nodup → ∀ {i : Nat} {a : α}, l[i]? = some a →
      l.find? (fun b => hashOf b == hashOf a) = some a := by
  intro l
  induction l with
  | nil => intro _ i a ha; simp at ha
  | cons c cs ih =>
    intro hnd i a ha
    rw [List.map_cons] at hnd
    rcases List.nodup_cons.mp hnd with ⟨hc, hcs⟩
    match i with
    | 0 =>
      rw [List.getElem?_cons_zero] at ha
      rw [← Option.some.inj ha]
      simp [List.find?]
    | i' + 1 =>
      rw [List.getElem?_cons_succ] at ha
      have hamem : a ∈ cs := by
        rcases List.getElem?_eq_some.mp ha with ⟨hlt, hget⟩
        exact hget ▸ List.getElem_mem hlt
      have hne : hashOf c ≠ hashOf a := by
        intro hEq
        exact hc (by rw [hEq]; exact List.mem_map_of_mem hashOf hamem)
      have hne2 : (hashOf c == hashOf a) = false := by simpa using hne
      simp only [List.find?, hne2]
      exact ih hcs ha

theorem lookupUsage_bumpUsage (family : String) (u : TokenCount) :
    ∀ (tu : List (String × TokenCount)),
      lookupUsage family (bumpUsage family u tu) =
        ⟨(lookupUsage family tu).input + u.input,
         (lookupUsage family tu).output + u.output⟩ := by
  intro tu
  induction tu with
  | nil => simp [bumpUsage, lookupUsage]
  | cons fc rest ih =>
    rcases fc with ⟨f, c⟩
    simp only [bumpUsage]
    by_cases hf : f == family
    · rw [if_pos hf]
      simp [lookupUsage, hf]
    · rw [if_neg hf]
      simp [lookupUsage, hf, ih]


/-- The fields of a key record that drive selection in `get()`: the
hash identifying the record plus the filter flags and the balance.
`get()` reads nothing else, and its own mutations touch nothing
in this view. -/
structure KeyCore where
  hash : String
  isDisabled : Bool
  isFreeTier : Bool
  isOverQuota : Bool
  balance : Option Int
deriving DecidableEq, Repr

def core (k : OpenrouterKey) : KeyCore :=
  ⟨k.hash, k.isDisabled, k.isFreeTier, k.isOverQuota, k.balance⟩

def pairView (q : Nat × OpenrouterKey) : Nat × KeyCore :=
  (q.1, core q.2)

theorem eligiblePairs_sub {l : List OpenrouterKey} {model : String}
    {q : Nat × OpenrouterKey} (h : q ∈ eligiblePairs l model) :
    q ∈ enumFrom 0 l ∧ q.2.isDisabled = false := by
  have havail : ∀ {r : Nat × OpenrouterKey},
      r ∈ (enumFrom 0 l).filter (fun r => !r.2.isDisabled) →
      r ∈ enumFrom 0 l ∧ r.2.isDisabled = false := by
    intro r hr
    rcases List.mem_filter.mp hr with ⟨h1, h2⟩
    exact ⟨h1, by simpa using h2⟩
  unfold eligiblePairs at h
  by_cases hm : isFreeModel model
  · rw [if_pos hm] at h
    by_cases hlen : (((enumFrom 0 l).filter (fun r => !r.2.isDisabled)).filter
        (fun r => r.2.isFreeTier && !r.2.isOverQuota)).length > 0
    · rw [if_pos hlen] at h
      exact havail (List.mem_filter.mp h).1
    · rw [if_neg hlen] at h
      exact havail h
  · rw [if_neg hm] at h
    exact havail (List.mem_filter.mp h).1

theorem eligiblePairs_paid {l : List OpenrouterKey} {model : String}
    (hm : isFreeModel model = false) {q : Nat × OpenrouterKey}
    (h : q ∈ eligiblePairs l model) :
    q.2.isFreeTier = false ∧ q.2.isOverQuota = false := by
  unfold eligiblePairs at h
  rw [if_neg (by simp [hm])] at h
  rcases List.mem_filter.mp h with ⟨_, h2⟩
  simp only [Bool.and_eq_true, Bool.not_eq_true'] at h2
  exact ⟨by simpa using h2.1, h2.2⟩

theorem eligiblePairs_paid_complete {l : List OpenrouterKey} {model : String}
    (hm : isFreeModel model = false) {i : Nat} {j : OpenrouterKey}
    (hij : l[i]? = some j) (h1 : j.isDisabled = false) (h2 : j.isFreeTier = false)
    (h3 : j.isOverQuota = false) : (i, j) ∈ eligiblePairs l model := by
  have hmem : (i, j) ∈ enumFrom 0 l := by
    have h0 := @enumFrom_of_getElem? _ l 0 i j hij
    simpa using h0
  unfold eligiblePairs
  rw [if_neg (by simp [hm])]
  exact List.mem_filter.mpr ⟨List.mem_filter.mpr ⟨hmem, by simp [h1]⟩, by simp [h2, h3]⟩

theorem eligiblePairs_view {l l' : List OpenrouterKey} (model : String)
    (h : l.map core = l'.map core) :
    (eligiblePairs l model).map pairView = (eligiblePairs l' model).map pairView := by
  have henum : (enumFrom 0 l).map pairView = (enumFrom 0 l').map pairView := by
    have e1 := enumFrom_map core l 0
    have e2 := enumFrom_map core l' 0
    unfold pairView
    rw [← e1, ← e2, h]
  have havail : ((enumFrom 0 l).filter (fun r => !r.2.isDisabled)).map pairView =
      ((enumFrom 0 l').filter (fun r => !r.2.isDisabled)).map pairView := by
    have := filter_map_view pairView (fun c => !c.2.isDisabled) henum
    simpa [pairView] using this
  have hfree : (((enumFrom 0 l).filter (fun r => !r.2.isDisabled)).filter
        (fun r => r.2.isFreeTier && !r.2.isOverQuota)).map pairView =
      (((enumFrom 0 l').filter (fun r => !r.2.isDisabled)).filter
        (fun r => r.2.isFreeTier && !r.2.isOverQuota)).map pairView := by
    have := filter_map_view pairView (fun c => c.2.isFreeTier && !c.2.isOverQuota) havail
    simpa [pairView] using this
  have hpaid : (((enumFrom 0 l).filter (fun r => !r.2.isDisabled)).filter
        (fun r => !r.2.isFreeTier && !r.2.isOverQuota)).map pairView =
      (((enumFrom 0 l').filter (fun r => !r.2.isDisabled)).filter
        (fun r => !r.2.isFreeTier && !r.2.isOverQuota)).map pairView := by
    have := filter_map_view pairView (fun c => !c.2.isFreeTier && !c.2.isOverQuota) havail
    simpa [pairView] using this
  have hlenfree : (((enumFrom 0 l).filter (fun r => !r.2.isDisabled)).filter
        (fun r => r.2.isFreeTier && !r.2.isOverQuota)).length =
      (((enumFrom 0 l').filter (fun r => !r.2.isDisabled)).filter
        (fun r => r.2.isFreeTier && !r.2.isOverQuota)).length := by
    have := congrArg List.length hfree
    simpa using this
  unfold eligiblePairs
  by_cases hm : isFreeModel model
  · rw [if_pos hm, if_pos hm]
    by_cases hlen : (((enumFrom 0 l).filter (fun r => !r.2.isDisabled)).filter
        (fun r => r.2.isFreeTier && !r.2.isOverQuota)).length > 0
    · rw [if_pos hlen, if_pos (hlenfree ▸ hlen)]
      exact hfree
    · rw [if_neg hlen, if_neg (hlenfree ▸ hlen)]
      exact havail
  · rw [if_neg hm, if_neg hm]
    exact hpaid

theorem get_keys_map_core (p : Pool) (model : String) (now : Nat) :
    (get p model now).2.keys.map core = p.keys.map core := by
  unfold get
  cases e : eligiblePairs p.keys model with
  | nil => rfl
  | cons q qs =>
    simp only []
    rw [throttleKeys, updByHash_map_view core _ _ (by intro a; rfl),
      modifyIdx_map_view core _ (by intro a; rfl)]

theorem get_cons_spec (p : Pool) (model : String) (now : Nat)
    {q : Nat × OpenrouterKey} {qs : List (Nat × OpenrouterKey)}
    (e : eligiblePairs p.keys model = q :: qs) :
    ∃ snap, (get p model now).1 = Except.ok snap ∧
      core snap = core (pickBy keyGt q qs).2 := by
  have hmem : pickBy keyGt q qs ∈ eligiblePairs p.keys model := by
    rw [e]
    rcases pickBy_mem keyGt qs q with h | h
    · rw [h]; exact List.mem_cons_self q qs
    · exact List.mem_cons_of_mem q h
  rcases eligiblePairs_sub hmem with ⟨henum, _⟩
  rcases enumFrom_getElem? henum with ⟨j, hj1, hj2⟩
  have hidx : p.keys[(pickBy keyGt q qs).1]? =
      some (pickBy keyGt q qs).2 := by
    rw [show (pickBy keyGt q qs).1 = j by omega]
    exact hj2
  have hcore : (throttleKeys (modifyIdx (fun k => { k with lastUsed := now }) p.keys
        (pickBy keyGt q qs).1)
        (pickBy keyGt q qs).2.hash now).map core =
      p.keys.map core := by
    rw [throttleKeys, updByHash_map_view core _ _ (by intro a; rfl),
      modifyIdx_map_view core _ (by intro a; rfl)]
  rcases map_view_getElem? core hcore.symm hidx with ⟨b, hb1, hb2⟩
  refine ⟨b, ?_, hb2⟩
  unfold get
  rw [e]
  simp only [Except.ok.injEq]
  rw [List.getD_eq_getElem?_getD, hb1]
  rfl


theorem pick_mem_of_cons {l : List OpenrouterKey} {model : String}
    {q : Nat × OpenrouterKey} {qs : List (Nat × OpenrouterKey)}
    (e : eligiblePairs l model = q :: qs) :
    pickBy keyGt q qs ∈ eligiblePairs l model := by
  rw [e]
  rcases pickBy_mem keyGt qs q with h | h
  · rw [h]; exact List.mem_cons_self q qs
  · exact List.mem_cons_of_mem q h

/-- `this.keys.find(k => k.hash === h)`. -/
def findByHash (l : List OpenrouterKey) (h : String) : Option OpenrouterKey :=
  l.find? (fun k => k.hash == h)

/-- The element chosen by the reduce is one of the candidates. -/
theorem pickBy_max_cons_mem {α : Type} (gt : α → α → Bool) (l : List α) (acc : α) :
    pickBy gt acc l ∈ acc :: l := by
  rcases pickBy_mem gt l acc with h | h
  · rw [h]; exact List.mem_cons_self acc l
  · exact List.mem_cons_of_mem acc h

/-- When the seed and every candidate carry a defined balance, the
reduce keeps a defined balance and the chosen element's balance bounds
every participant — the JS undefined-comparison pitfall cannot occur. -/
theorem pickBy_optMax {α : Type} (m : α → Option Int) (gt : α → α → Bool)
    (hg : ∀ a b, gt a b = balGt (m a) (m b)) :
    ∀ (l : List α) (acc : α), (∀ a ∈ l, (m a).isSome = true) →
      (m acc).isSome = true →
      (m (pickBy gt acc l)).isSome = true ∧
      ∀ a ∈ acc :: l, ∀ x y : Int, m a = some x →
        m (pickBy gt acc l) = some y → x ≤ y := by
  intro l
  induction l with
  | nil =>
    intro acc _ hacc
    refine ⟨hacc, ?_⟩
    intro a ha x y hx hy
    rcases List.mem_cons.mp ha with h | h
    · rw [h] at hx
      have hy2 : m acc = some y := hy
      rw [hx] at hy2
      exact le_of_eq (Option.some.inj hy2)
    · cases h
  | cons b bs ih =>
    intro acc hl hacc
    have hbS : (m b).isSome = true := hl b (List.mem_cons_self b bs)
    have hbs : ∀ a ∈ bs, (m a).isSome = true :=
      fun a ha => hl a (List.mem_cons_of_mem b ha)
    rcases Option.isSome_iff_exists.mp hacc with ⟨xa, hxa⟩
    rcases Option.isSome_iff_exists.mp hbS with ⟨xb, hxb⟩
    simp only [pickBy]
    by_cases hgt : gt acc b = true
    · rw [if_pos hgt]
      rcases ih acc hbs hacc with ⟨hS, hmax⟩
      refine ⟨hS, ?_⟩
      intro a ha x y hx hy
      rcases List.mem_cons.mp ha with h | h
      · rw [h] at hx
        exact hmax acc (List.mem_cons_self acc bs) x y hx hy
      · rcases List.mem_cons.mp h with h2 | h2
        · have hgt2 : balGt (m acc) (m b) = true := by rw [← hg]; exact hgt
          rw [hxa, hxb] at hgt2
          have hlt : xb < xa := by simpa [balGt] using hgt2
          have hxay : xa ≤ y := hmax acc (List.mem_cons_self acc bs) xa y hxa hy
          have hxxb : x = xb := by
            rw [h2] at hx
            rw [hx] at hxb
            exact Option.some.inj hxb
          omega
        · exact hmax a (List.mem_cons_of_mem acc h2) x y hx hy
    · rw [if_neg hgt]
      rcases ih b hbs hbS with ⟨hS, hmax⟩
      refine ⟨hS, ?_⟩
      intro a ha x y hx hy
      rcases List.mem_cons.mp ha with h | h
      · have hgt2 : balGt (m acc) (m b) = false := by
          rw [← hg]; exact Bool.of_not_eq_true hgt
        rw [hxa, hxb] at hgt2
        have hle : xa ≤ xb := by
          have := of_decide_eq_false hgt2
          omega
        have hxby : xb ≤ y := hmax b (List.mem_cons_self b bs) xb y hxb hy
        have hxxa : x = xa := by
          rw [h] at hx
          rw [hx] at hxa
          exact Option.some.inj hxa
        omega
      · exact hmax a h x y hx hy

/-- C5: `get()` fails (with the no-keys error) exactly when the eligible
set after the disabled/tier/over-quota filtering is empty; in that case
the pool state is untouched, and when the eligible set is non-empty
`get()` returns a key and never fails. -/
theorem c5_no_key_available (p : Pool) (model : String) (now : Nat) :
    ((get p model now).1 = Except.error () ↔ eligiblePairs p.keys model = [])
    ∧ (eligiblePairs p.keys model = [] → (get p model now).2 = p)
    ∧ (eligiblePairs p.keys model ≠ [] → ∃ k, (get p model now).1 = Except.ok k) := by
  refine ⟨⟨?_, ?_⟩, ?_, ?_⟩
  · intro he
    cases e : eligiblePairs p.keys model with
    | nil => rfl
    | cons q qs =>
      rcases get_cons_spec p model now e with ⟨snap, hs, _⟩
      rw [hs] at he; cases he
  · intro hnil
    unfold get; rw [hnil]
  · intro hnil
    unfold get; rw [hnil]
  · intro hne
    cases e : eligiblePairs p.keys model with
    | nil => exact absurd e hne
    | cons q qs =>
      rcases get_cons_spec p model now e with ⟨snap, hs, _⟩
      exact ⟨snap, hs⟩

/-- C5 witness: on a pool with no keys the first `get` fails leaving the
pool unchanged. -/
theorem c5_no_key_available_witness :
    (get (Pool.mk []) "m" 0).2 = Pool.mk [] :=
  (c5_no_key_available (Pool.mk []) "m" 0).2.1 rfl

/-- C2: `get()` never returns a disabled key, and for a paid model it
returns a paid-tier key whenever at least one non-disabled paid
non-over-quota key exists. -/
theorem c2_get_respects_disabled_and_tier (p : Pool) (model : String) (now : Nat) :
    (∀ k, (get p model now).1 = Except.ok k → k.isDisabled = false)
    ∧ (isFreeModel model = false →
        (∃ j ∈ p.keys, j.isDisabled = false ∧ j.isFreeTier = false ∧
          j.isOverQuota = false) →
        ∃ k, (get p model now).1 = Except.ok k ∧ k.isFreeTier = false) := by
  constructor
  · intro k hk
    cases e : eligiblePairs p.keys model with
    | nil => unfold get at hk; rw [e] at hk; cases hk
    | cons q qs =>
      rcases get_cons_spec p model now e with ⟨snap, hs, hcore⟩
      have hks : k = snap := by rw [hk] at hs; exact Except.ok.inj hs
      subst hks
      have hdis := (eligiblePairs_sub (pick_mem_of_cons e)).2
      have hfield := congrArg KeyCore.isDisabled hcore
      exact hfield.trans hdis
  · intro hm hex
    obtain ⟨j, hj, hjd, hjf, hjq⟩ := hex
    rcases List.getElem?_of_mem hj with ⟨i, hi⟩
    have hel : (i, j) ∈ eligiblePairs p.keys model :=
      eligiblePairs_paid_complete hm hi hjd hjf hjq
    cases e : eligiblePairs p.keys model with
    | nil => rw [e] at hel; cases hel
    | cons q qs =>
      rcases get_cons_spec p model now e with ⟨snap, hs, hcore⟩
      refine ⟨snap, hs, ?_⟩
      have hpf := (eligiblePairs_paid hm (pick_mem_of_cons e)).1
      have hfield := congrArg KeyCore.isFreeTier hcore
      exact hfield.trans hpf

/-- C2 witness: a two-key pool with one free-tier and one paid key;
`get` for a paid model returns the paid key. -/
theorem c2_get_respects_disabled_and_tier_witness :
    ∃ k, (get (Pool.mk [{ mkKey "sf" "F" with isFreeTier := true }, mkKey "sp" "P"])
        "anthropic/claude-3-opus" 0).1 = Except.ok k ∧ k.isFreeTier = false :=
  (c2_get_respects_disabled_and_tier
      (Pool.mk [{ mkKey "sf" "F" with isFreeTier := true }, mkKey "sp" "P"])
      "anthropic/claude-3-opus" 0).2 (by decide)
    ⟨mkKey "sp" "P", by decide, by decide, by decide, by decide⟩

/-- C7: one `incrementUsage` call adds exactly 1 to the key's prompt
count and adds the usage amounts to that family's bucket (creating it on
first use); calling it twice with input 10 / output 5 on a fresh key
yields totals 20 / 10 and prompt count 2. -/
theorem c7_increment_usage :
    (∀ (p : Pool) (h fam : String) (u : TokenCount) (k : OpenrouterKey),
      findByHash p.keys h = some k →
      ∃ k', findByHash (incrementUsage p h fam u).keys h = some k' ∧
        k'.promptCount = k.promptCount + 1 ∧
        lookupUsage fam k'.tokenUsage =
          ⟨(lookupUsage fam k.tokenUsage).input + u.input,
           (lookupUsage fam k.tokenUsage).output + u.output⟩)
    ∧ ((findByHash (incrementUsage (incrementUsage (mkPool id ["s"]) "s" "familyA"
          ⟨10, 5⟩) "s" "familyA" ⟨10, 5⟩).keys "s").map
        (fun k => (k.promptCount, lookupUsage "familyA" k.tokenUsage)) =
          some (2, ⟨20, 10⟩)) := by
  constructor
  · intro p h fam u k hk
    have hfind := updByHash_find? (fun k : OpenrouterKey => k.hash)
      (fun k =>
        { k with
          promptCount := k.promptCount + 1
          tokenUsage := bumpUsage fam u k.tokenUsage }) (by intro a; rfl) h p.keys
    refine ⟨{ k with
      promptCount := k.promptCount + 1
      tokenUsage := bumpUsage fam u k.tokenUsage }, ?_, rfl, ?_⟩
    · show (updByHash _ _ _ p.keys).find? _ = _
      rw [hfind]
      unfold findByHash at hk
      rw [hk]
      rfl
    · exact lookupUsage_bumpUsage fam u k.tokenUsage
  · decide

/-- C7 witness: the single-call statement applied to a fresh one-key
pool. -/
theorem c7_increment_usage_witness :
    ∃ k', findByHash (incrementUsage (mkPool id ["s"]) "s" "familyA"
        ⟨10, 5⟩).keys "s" = some k' ∧
      k'.promptCount = (mkKey "s" "s").promptCount + 1 ∧
      lookupUsage "familyA" k'.tokenUsage =
        ⟨(lookupUsage "familyA" (mkKey "s" "s").tokenUsage).input + 10,
         (lookupUsage "familyA" (mkKey "s" "s").tokenUsage).output + 5⟩ :=
  c7_increment_usage.1 (mkPool id ["s"]) "s" "familyA" ⟨10, 5⟩ (mkKey "s" "s")
    (by decide)

/-- C10: calling `update`, `incrementUsage`, or `disable` with a hash
that matches no key in the pool returns normally and leaves the pool
unchanged. -/
theorem c10_unknown_hash_noop (p : Pool) (h : String) (u : KeyUpdate)
    (fam : String) (tc : TokenCount) (key : OpenrouterKey)
    (hn : ∀ j ∈ p.keys, j.hash ≠ h) (hk : ∀ j ∈ p.keys, j.hash ≠ key.hash) :
    update p h u = p ∧ incrementUsage p h fam tc = p ∧ disable p key = p := by
  refine ⟨?_, ?_, ?_⟩
  · exact congrArg Pool.mk (updByHash_id _ _ _ p.keys hn)
  · exact congrArg Pool.mk (updByHash_id _ _ _ p.keys hn)
  · exact congrArg Pool.mk (updByHash_id _ _ _ p.keys hk)

/-- C10 witness: a one-key pool and a hash matching nothing. -/
theorem c10_unknown_hash_noop_witness :
    update (mkPool id ["s"]) "zzz" recheckUpdate = mkPool id ["s"] ∧
      incrementUsage (mkPool id ["s"]) "zzz" "familyA" ⟨1, 2⟩ = mkPool id ["s"] ∧
      disable (mkPool id ["s"]) (mkKey "z" "zzz") = mkPool id ["s"] :=
  c10_unknown_hash_noop (mkPool id ["s"]) "zzz" recheckUpdate "familyA" ⟨1, 2⟩
    (mkKey "z" "zzz") (by decide) (by decide)

/-- C4: newly constructed keys carry both lockout clocks at 0, and both
lockout-setting operations (`markRateLimited`, and the throttle stamped
inside `get`) preserve `rateLimitedAt ≤ rateLimitedUntil` for every key,
establishing it outright on the key they touch. -/
theorem c4_lockout_clock_order :
    (∀ (hashKey : String → String) (secrets : List String) k,
      k ∈ (mkPool hashKey secrets).keys → k.rateLimitedAt = 0 ∧ k.rateLimitedUntil = 0)
    ∧ (∀ (p : Pool) (h : String) (now : Nat) (p' : Pool),
        markRateLimited p h now = some p' →
        (∀ k ∈ p.keys, k.rateLimitedAt ≤ k.rateLimitedUntil) →
        ∀ k' ∈ p'.keys, k'.rateLimitedAt ≤ k'.rateLimitedUntil)
    ∧ (∀ (p : Pool) (model : String) (now : Nat),
        (∀ k ∈ p.keys, k.rateLimitedAt ≤ k.rateLimitedUntil) →
        ∀ k' ∈ (get p model now).2.keys, k'.rateLimitedAt ≤ k'.rateLimitedUntil) := by
  refine ⟨?_, ?_, ?_⟩
  · intro hashKey secrets k hk
    rcases List.mem_map.mp hk with ⟨s, _, hs⟩
    rw [← hs]
    exact ⟨rfl, rfl⟩
  · intro p h now p' hmark hinv k' hk'
    unfold markRateLimited at hmark
    by_cases hany : p.keys.any (fun k => k.hash == h)
    · rw [if_pos hany] at hmark
      rcases Option.some.inj hmark with hp'
      rw [← hp'] at hk'
      rcases updByHash_mem _ _ _ hk' with hmem | ⟨a, _, hfa⟩
      · exact hinv k' hmem
      · rw [hfa]
        simp only []
        omega
    · rw [if_neg hany] at hmark
      cases hmark
  · intro p model now hinv k' hk'
    unfold get at hk'
    cases e : eligiblePairs p.keys model with
    | nil => rw [e] at hk'; exact hinv k' hk'
    | cons q qs =>
      rw [e] at hk'
      simp only [] at hk'
      have hstep : ∀ j ∈ modifyIdx (fun k => { k with lastUsed := now }) p.keys
          (pickBy keyGt q qs).1,
          j.rateLimitedAt ≤ j.rateLimitedUntil := by
        intro j hj
        rcases modifyIdx_mem _ hj with hmem | ⟨a, ha, hfa⟩
        · exact hinv j hmem
        · rw [hfa]; exact hinv a ha
      rcases updByHash_mem _ _ _ hk' with hmem | ⟨a, ha, hfa⟩
      · exact hstep k' hmem
      · rw [hfa]
        simp only []
        exact le_trans (Nat.le_add_right now KEY_REUSE_DELAY) (le_max_right _ _)

/-- C4 witness: the clocks ordering after a concrete `get` on a fresh
one-key pool. -/
theorem c4_lockout_clock_order_witness :
    ((get (mkPool id ["s"]) "m" 3).2.keys.getD 0 (mkKey "x" "x")).rateLimitedAt ≤
      ((get (mkPool id ["s"]) "m" 3).2.keys.getD 0 (mkKey "x" "x")).rateLimitedUntil :=
  c4_lockout_clock_order.2.2 (mkPool id ["s"]) "m" 3 (by decide) _ (by decide)

def c8Pool : Pool := mkPool id ["x"]

/-- C8 counterexample: the checker classifies HTTP 429 on the test probe
as quota and consequently disables the key, contradicting the claim that
a 429 leaves the key enabled; it does not mark it revoked. -/
theorem c8_429_disables_key :
    classifyProbe 200 429 = CheckResult.quota ∧
      (checkKeyOutcome c8Pool "x" 200 429 7).keys.map
        (fun k => (k.isDisabled, k.isOverQuota, k.isRevoked)) = [(true, true, false)] := by
  decide

/-- C8 (amended): a validation probe answered with HTTP 429 on the test
request is classified as quota: `handleCheckResult` disables the key and
sets `isOverQuota`, leaving `isRevoked` untouched (the key is not marked
invalid). -/
theorem c8_429_classified_quota (p : Pool) (h : String) (now : Nat)
    (k : OpenrouterKey) (hk : findByHash p.keys h = some k) :
    classifyProbe 200 429 = CheckResult.quota ∧
    ∃ k', findByHash (checkKeyOutcome p h 200 429 now).keys h = some k' ∧
      k'.isDisabled = true ∧ k'.isOverQuota = true ∧ k'.isRevoked = k.isRevoked := by
  have hcls : classifyProbe 200 429 = CheckResult.quota := by decide
  refine ⟨hcls, ?_⟩
  show ∃ k', findByHash (handleCheckResult p h (classifyProbe 200 429) now).keys h
    = some k' ∧ _
  rw [hcls]
  have hfind := updByHash_find? (fun k : OpenrouterKey => k.hash)
    (applyUpdate
      { isDisabled := some true
        isOverQuota := some true
        lastChecked := some now }) (by intro a; rfl) h p.keys
  refine ⟨applyUpdate
    { isDisabled := some true
      isOverQuota := some true
      lastChecked := some now } k, ?_, rfl, rfl, rfl⟩
  show (updByHash _ _ _ p.keys).find? _ = _
  rw [hfind]
  unfold findByHash at hk
  rw [hk]
  rfl

/-- C8 witness: the amended statement at a concrete fresh key. -/
theorem c8_429_classified_quota_witness :
    classifyProbe 200 429 = CheckResult.quota ∧
    ∃ k', findByHash (checkKeyOutcome c8Pool "x" 200 429 7).keys "x" = some k' ∧
      k'.isDisabled = true ∧ k'.isOverQuota = true ∧
      k'.isRevoked = (mkKey "x" "x").isRevoked :=
  c8_429_classified_quota c8Pool "x" 7 (mkKey "x" "x") (by decide)


def c1Pool : Pool :=
  ⟨[{ mkKey "sa" "A" with balance := some 10 },
    { mkKey "sb" "B" with balance := some 5 }]⟩

/-- C1 counterexample: `get` filters only on the disabled/tier/quota
flags, never on the throttle clock.  On a two-key paid pool the first
`get` at time 1000 returns key A and stamps its `rateLimitedUntil` to
1500, yet a second `get` at time 1001 (inside the 500 ms reuse window)
returns key A again even though the alternative key B is eligible and
unthrottled. -/
theorem c1_second_get_returns_same_key :
    ((get c1Pool "m" 1000).1.toOption.map (fun k => k.hash) = some "A")
    ∧ ((get (get c1Pool "m" 1000).2 "m" 1001).1.toOption.map (fun k => k.hash) =
        some "A")
    ∧ (∃ k ∈ (get c1Pool "m" 1000).2.keys, k.hash = "B" ∧ k.isDisabled = false ∧
        k.isFreeTier = false ∧ k.isOverQuota = false ∧ k.rateLimitedUntil = 0)
    ∧ (1001 < 1000 + KEY_REUSE_DELAY)
    ∧ ((get c1Pool "m" 1000).2.keys.map (fun k => k.rateLimitedUntil) = [1500, 0]) := by
  decide

/-- C1 (amended): selection in `get` depends only on the hash, the
disabled/tier/quota flags and the balance of each key — none of which
the `get`-internal throttle changes — so whenever a `get` succeeds, an
immediately repeated `get` under the same constraints succeeds and
returns the very same key again, regardless of the throttle stamped by
the first call. -/
theorem c1_get_ignores_throttle (p : Pool) (model : String) (now now2 : Nat)
    (k : OpenrouterKey) (h : (get p model now).1 = Except.ok k) :
    ∃ k', (get (get p model now).2 model now2).1 = Except.ok k' ∧
      k'.hash = k.hash ∧ k'.balance = k.balance := by
  have hmap : (get p model now).2.keys.map core = p.keys.map core :=
    get_keys_map_core p model now
  cases e : eligiblePairs p.keys model with
  | nil => unfold get at h; rw [e] at h; cases h
  | cons q qs =>
    have hview := eligiblePairs_view model hmap
    rw [e] at hview
    cases e1 : eligiblePairs (get p model now).2.keys model with
    | nil => rw [e1] at hview; cases hview
    | cons q1 qs1 =>
      rw [e1] at hview
      simp only [List.map_cons, List.cons.injEq] at hview
      rcases hview with ⟨hq, hqs⟩
      rcases get_cons_spec p model now e with ⟨snap, hs, hcore⟩
      have hks : k = snap := by rw [h] at hs; exact Except.ok.inj hs
      rcases get_cons_spec (get p model now).2 model now2 e1 with ⟨snap1, hs1, hcore1⟩
      have hpick : pairView (pickBy keyGt q1 qs1)
          = pairView (pickBy keyGt q qs) :=
        pickBy_view pairView keyGt
          (fun c d : Nat × KeyCore => balGt c.2.balance d.2.balance)
          (fun a b => rfl) hq hqs
      have hcc : core snap1 = core k := by
        rw [hcore1, hks, hcore]
        exact congrArg Prod.snd hpick
      exact ⟨snap1, hs1, congrArg KeyCore.hash hcc, congrArg KeyCore.balance hcc⟩

/-- C1 amended witness: the repeated `get` on the concrete two-key pool
returns a key with the same hash and balance as the first. -/
theorem c1_get_ignores_throttle_witness :
    ∃ k', (get (get c1Pool "m" 1000).2 "m" 1001).1 = Except.ok k' ∧
      k'.hash = "A" ∧ k'.balance = some (10 : Int) :=
  c1_get_ignores_throttle c1Pool "m" 1000 1001 _ (by rfl)

def c3Pool : Pool :=
  recheck true (handleCheckResult (mkPool id ["sk-a"]) "sk-a" CheckResult.invalid 5)

/-- C3 counterexample: a reachable pool state in which a key is revoked
but not disabled.  Starting from a fresh one-key pool, a definitive
authentication failure revokes and disables the key, and a subsequent
`recheck()` clears `isDisabled` on every key while leaving `isRevoked`
set, so the invariant `isRevoked implies isDisabled` does not hold in
every reachable state. -/
theorem c3_recheck_breaks_revoked_disabled :
    Reachable id ["sk-a"] c3Pool ∧
      c3Pool.keys.map (fun k => (k.isRevoked, k.isDisabled)) = [(true, false)] := by
  constructor
  · exact Relation.ReflTransGen.tail
      (Relation.ReflTransGen.tail Relation.ReflTransGen.refl
        (Step.check "sk-a" CheckResult.invalid 5 (mkPool id ["sk-a"])))
      (Step.recheckStep true _)
  · decide

/-- Revocation survives one step: pointwise along positions, a revoked
key stays revoked. -/
def KeepRevoked (a b : OpenrouterKey) : Prop :=
  a.isRevoked = true → b.isRevoked = true

theorem keepRevoked_forall₂_trans :
    ∀ {l1 l2 l3 : List OpenrouterKey}, List.Forall₂ KeepRevoked l1 l2 →
      List.Forall₂ KeepRevoked l2 l3 → List.Forall₂ KeepRevoked l1 l3 := by
  intro l1 l2 l3 h12
  induction h12 generalizing l3 with
  | nil => intro h23; cases h23; exact List.Forall₂.nil
  | cons hR hrest ih =>
    intro h23
    cases h23 with
    | cons hR2 hrest2 => exact List.Forall₂.cons (fun h => hR2 (hR h)) (ih hrest2)

theorem keepRevoked_refl : ∀ (l : List OpenrouterKey), List.Forall₂ KeepRevoked l l :=
  fun l => List.forall₂_same.mpr (fun a _ => fun h => h)

theorem update_keeps_revoked (p : Pool) (h : String) (u : KeyUpdate)
    (hu : u.isRevoked = none ∨ u.isRevoked = some true) :
    List.Forall₂ KeepRevoked p.keys (update p h u).keys := by
  apply updByHash_forall₂ KeepRevoked (fun k : OpenrouterKey => k.hash)
    (applyUpdate u) (fun a => fun hr => hr)
  intro a hr
  show (applyUpdate u a).isRevoked = true
  rcases hu with hu | hu <;> simp [applyUpdate, hu, hr]

theorem recheck_foldl_keeps_revoked :
    ∀ (hs : List String) (p : Pool), List.Forall₂ KeepRevoked p.keys
      ((hs.foldl (fun q h => update q h recheckUpdate) p)).keys := by
  intro hs
  induction hs with
  | nil => intro p; exact keepRevoked_refl p.keys
  | cons h rest ih =>
    intro p
    exact keepRevoked_forall₂_trans
      (update_keeps_revoked p h recheckUpdate (Or.inl rfl)) (ih _)

theorem get_keys_forall₂ (p : Pool) (model : String) (now : Nat) :
    List.Forall₂ KeepRevoked p.keys (get p model now).2.keys := by
  unfold get
  cases e : eligiblePairs p.keys model with
  | nil => exact keepRevoked_refl p.keys
  | cons q qs =>
    show List.Forall₂ KeepRevoked p.keys
      (throttleKeys (modifyIdx (fun k => { k with lastUsed := now }) p.keys
        (pickBy keyGt q qs).1)
        (pickBy keyGt q qs).2.hash now)
    refine keepRevoked_forall₂_trans
      (modifyIdx_forall₂ KeepRevoked (fun k => { k with lastUsed := now })
        (fun a h => h) (by intro a h; exact h) p.keys
        (pickBy keyGt q qs).1) ?_
    exact updByHash_forall₂ KeepRevoked (fun k : OpenrouterKey => k.hash)
      (fun k =>
        { k with
          rateLimitedAt := now
          rateLimitedUntil := max k.rateLimitedUntil (now + KEY_REUSE_DELAY) })
      (fun a h => h) (by intro a h; exact h)
      (pickBy keyGt q qs).2.hash _

theorem step_keeps_revoked {p p' : Pool} (h : Step p p') :
    List.Forall₂ KeepRevoked p.keys p'.keys := by
  cases h with
  | getStep model now p => exact get_keys_forall₂ p model now
  | mark keyHash now p p' hmark =>
    unfold markRateLimited at hmark
    by_cases hany : p.keys.any (fun k => k.hash == keyHash)
    · rw [if_pos hany] at hmark
      rw [← Option.some.inj hmark]
      show List.Forall₂ KeepRevoked p.keys (updByHash (fun k : OpenrouterKey => k.hash)
        (fun k =>
          { k with
            rateLimitedAt := now
            rateLimitedUntil := now + RATE_LIMIT_LOCKOUT }) keyHash p.keys)
      exact updByHash_forall₂ KeepRevoked (fun k : OpenrouterKey => k.hash)
        (fun k =>
          { k with
            rateLimitedAt := now
            rateLimitedUntil := now + RATE_LIMIT_LOCKOUT })
        (fun a h => h) (by intro a h; exact h) keyHash p.keys
    · rw [if_neg hany] at hmark; cases hmark
  | usage keyHash family u p =>
    show List.Forall₂ KeepRevoked p.keys (updByHash (fun k : OpenrouterKey => k.hash)
      (fun k =>
        { k with
          promptCount := k.promptCount + 1
          tokenUsage := bumpUsage family u k.tokenUsage }) keyHash p.keys)
    exact updByHash_forall₂ KeepRevoked (fun k : OpenrouterKey => k.hash)
      (fun k =>
        { k with
          promptCount := k.promptCount + 1
          tokenUsage := bumpUsage family u k.tokenUsage })
      (fun a h => h) (by intro a h; exact h) keyHash p.keys
  | disableStep k p =>
    show List.Forall₂ KeepRevoked p.keys (updByHash (fun j : OpenrouterKey => j.hash)
      (fun j => { j with isDisabled := true }) k.hash p.keys)
    exact updByHash_forall₂ KeepRevoked (fun j : OpenrouterKey => j.hash)
      (fun j => { j with isDisabled := true })
      (fun a h => h) (by intro a h; exact h) k.hash p.keys
  | check keyHash r now p =>
    cases r with
    | valid => exact update_keeps_revoked p keyHash _ (Or.inl rfl)
    | invalid => exact update_keeps_revoked p keyHash _ (Or.inr rfl)
    | quota => exact update_keeps_revoked p keyHash _ (Or.inl rfl)
  | recheckStep b p =>
    cases b with
    | false => exact keepRevoked_refl p.keys
    | true =>
      show List.Forall₂ KeepRevoked p.keys (recheck true p).keys
      unfold recheck
      rw [if_pos rfl]
      exact recheck_foldl_keeps_revoked _ p

theorem reachable_keeps_revoked {p p' : Pool}
    (h : Relation.ReflTransGen Step p p') :
    List.Forall₂ KeepRevoked p.keys p'.keys := by
  induction h with
  | refl => exact keepRevoked_refl p.keys
  | tail h1 hstep ih => exact keepRevoked_forall₂_trans ih (step_keeps_revoked hstep)

/-- C3 (amended): `isRevoked` is terminal in the sense that no pool
operation — including `recheck()` — ever clears it: along any sequence
of operations, the key at each position stays revoked once revoked.
(`recheck()` does, however, clear `isDisabled` without clearing
`isRevoked`, so the implication `isRevoked → isDisabled` fails in some
reachable states.) -/
theorem c3_revoked_never_cleared {p p' : Pool}
    (h : Relation.ReflTransGen Step p p') {i : Nat} {k k' : OpenrouterKey}
    (hk : p.keys[i]? = some k) (hk' : p'.keys[i]? = some k')
    (hrev : k.isRevoked = true) : k'.isRevoked = true :=
  forall₂_getElem? (reachable_keeps_revoked h) hk hk' hrev

/-- C3 amended witness: the key revoked by a failed check is still
revoked after the `recheck()` that re-enabled it. -/
theorem c3_revoked_never_cleared_witness :
    (c3Pool.keys.getD 0 (mkKey "z" "z")).isRevoked = true :=
  @c3_revoked_never_cleared
    (handleCheckResult (mkPool id ["sk-a"]) "sk-a" CheckResult.invalid 5) c3Pool
    (Relation.ReflTransGen.single (Step.recheckStep true
      (handleCheckResult (mkPool id ["sk-a"]) "sk-a" CheckResult.invalid 5)))
    0 ((handleCheckResult (mkPool id ["sk-a"]) "sk-a" CheckResult.invalid 5).keys.getD 0
      (mkKey "z" "z"))
    (c3Pool.keys.getD 0 (mkKey "z" "z"))
    (by decide) (by decide) (by decide)


/-- Key record in the aliasing model: identical to `OpenrouterKey`
except that the `tokenUsage` field holds a reference into a store of
`tokenUsage` objects, making the JS object identity explicit.  The main
model above collapses this indirection, which is sound for pool-state
observations; the snapshot returned by `get()` is built with a shallow
spread, so its `tokenUsage` reference is shared with the pool's record,
and this model is the one that captures that. -/
structure AKey where
  key : String
  hash : String
  isDisabled : Bool
  isRevoked : Bool
  promptCount : Nat
  lastUsed : Nat
  lastChecked : Nat
  rateLimitedAt : Nat
  rateLimitedUntil : Nat
  isOverQuota : Bool
  isFreeTier : Bool
  balance : Option Int
  usageRef : Nat
deriving DecidableEq, Repr

/-- Pool state in the aliasing model: the key array plus the store of
`tokenUsage` objects, addressed by `usageRef`. -/
structure APool where
  keys : List AKey
  store : List (List (String × TokenCount))
deriving DecidableEq, Repr

/-- Reading a field of a snapshot's shared `tokenUsage` object: the
snapshot holds `usageRef`, the object lives in the store. -/
def viewUsage (p : APool) (k : AKey) (family : String) : TokenCount :=
  lookupUsage family (p.store.getD k.usageRef [])

/-- The filtering phase of `get()` in the aliasing model (same code as
`eligiblePairs`). -/
def aEligiblePairs (keys : List AKey) (model : String) : List (Nat × AKey) :=
  let avail := (enumFrom 0 keys).filter (fun q => !q.2.isDisabled)
  if isFreeModel model then
    let freeKeys := avail.filter (fun q => q.2.isFreeTier && !q.2.isOverQuota)
    if freeKeys.length > 0 then freeKeys else avail
  else
    avail.filter (fun q => !q.2.isFreeTier && !q.2.isOverQuota)

/-- The reduce comparison of `get()` in the aliasing model. -/
def aKeyGt (r s : Nat × AKey) : Bool :=
  balGt r.2.balance s.2.balance

/-- `get(model)` in the aliasing model.  The returned snapshot is the JS
shallow spread of the selected record: all scalar fields are copied,
while `usageRef` still points at the pool-owned `tokenUsage` object. -/
def aGet (p : APool) (model : String) (now : Nat) : Except Unit AKey × APool :=
  match aEligiblePairs p.keys model with
  | [] => (Except.error (), p)
  | q :: qs =>
    let sel := pickBy aKeyGt q qs
    let keys1 := modifyIdx (fun k => { k with lastUsed := now }) p.keys sel.1
    let keys2 := updByHash (fun k : AKey => k.hash)
      (fun k =>
        { k with
          rateLimitedAt := now
          rateLimitedUntil := max k.rateLimitedUntil (now + KEY_REUSE_DELAY) })
      sel.2.hash keys1
    (Except.ok (keys2.getD sel.1 sel.2), ⟨keys2, p.store⟩)

/-- `incrementUsage` in the aliasing model: bump `promptCount` on the
pool's record and mutate the `tokenUsage` object it references in the
store.  A missing hash is a silent no-op. -/
def aIncrementUsage (p : APool) (keyHash family : String) (usage : TokenCount) :
    APool :=
  match p.keys.find? (fun k => k.hash == keyHash) with
  | none => p
  | some k =>
    ⟨updByHash (fun j : AKey => j.hash)
      (fun j => { j with promptCount := j.promptCount + 1 }) keyHash p.keys,
     modifyIdx (bumpUsage family usage) p.store k.usageRef⟩

def c9Key : AKey :=
  { key := "s"
    hash := "K"
    isDisabled := false
    isRevoked := false
    promptCount := 0
    lastUsed := 0
    lastChecked := 0
    rateLimitedAt := 0
    rateLimitedUntil := 0
    isOverQuota := false
    isFreeTier := false
    balance := none
    usageRef := 0 }

def c9Pool : APool := ⟨[c9Key], [[]]⟩

def c9Run : Except Unit AKey × APool := aGet c9Pool "m" 5

def c9Snap : AKey := c9Run.1.toOption.getD c9Key

/-- C9 counterexample: the snapshot returned by `get` is only a shallow
copy.  After `incrementUsage` on the same key, the snapshot's observed
per-family totals have changed (from zero to the added usage), so the
returned value is not immune to subsequent pool mutations. -/
theorem c9_snapshot_shares_token_usage :
    c9Run.1.toOption = some c9Snap ∧
      viewUsage c9Run.2 c9Snap "familyA" = ⟨0, 0⟩ ∧
      viewUsage (aIncrementUsage c9Run.2 "K" "familyA" ⟨10, 5⟩) c9Snap "familyA" =
        ⟨10, 5⟩ := by
  decide

/-- Members of the aliasing-model eligible set come from the enumerated
key array. -/
theorem aEligiblePairs_sub {l : List AKey} {model : String} {q : Nat × AKey}
    (h : q ∈ aEligiblePairs l model) : q ∈ enumFrom 0 l := by
  have havail : ∀ {r : Nat × AKey},
      r ∈ (enumFrom 0 l).filter (fun r => !r.2.isDisabled) → r ∈ enumFrom 0 l :=
    fun hr => (List.mem_filter.mp hr).1
  unfold aEligiblePairs at h
  by_cases hm : isFreeModel model
  · rw [if_pos hm] at h
    by_cases hlen : (((enumFrom 0 l).filter (fun r => !r.2.isDisabled)).filter
        (fun r => r.2.isFreeTier && !r.2.isOverQuota)).length > 0
    · rw [if_pos hlen] at h
      exact havail (List.mem_filter.mp h).1
    · rw [if_neg hlen] at h
      exact havail h
  · rw [if_neg hm] at h
    exact havail (List.mem_filter.mp h).1

/-- The reference-and-hash view of an aliasing-model key: everything the
sharing argument needs, and everything `aGet`-internal stamps leave
untouched. -/
def refView (k : AKey) : String × Nat := (k.hash, k.usageRef)

/-- C9 (amended): scalar fields of the snapshot are copies, but the
`tokenUsage` object is shared by reference: after a successful `aGet`,
an `incrementUsage` on the returned key's hash changes the snapshot's
observed per-family totals by exactly the added usage (while the
snapshot record itself, including its copied `promptCount`, is a fixed
value). -/
theorem c9_shallow_snapshot (p : APool) (model : String) (now : Nat)
    (snap : AKey) (p1 : APool) (fam : String) (u : TokenCount)
    (hnd : (p.keys.map (fun k => k.hash)).Nodup)
    (href : ∀ k ∈ p.keys, k.usageRef < p.store.length)
    (hget : aGet p model now = (Except.ok snap, p1)) :
    viewUsage (aIncrementUsage p1 snap.hash fam u) snap fam =
      ⟨(viewUsage p1 snap fam).input + u.input,
       (viewUsage p1 snap fam).output + u.output⟩ := by
  cases e : aEligiblePairs p.keys model with
  | nil =>
    unfold aGet at hget
    rw [e] at hget
    cases Prod.mk.injEq .. ▸ hget with
    | intro h1 h2 => cases h1
  | cons q qs =>
    unfold aGet at hget
    rw [e] at hget
    simp only [Prod.mk.injEq] at hget
    rcases hget with ⟨hsnap, hp1⟩
    have hsel : pickBy aKeyGt q qs ∈ q :: qs :=
      pickBy_max_cons_mem aKeyGt qs q
    rw [← e] at hsel
    rcases enumFrom_getElem? (aEligiblePairs_sub hsel) with ⟨j, hj1, hj2⟩
    have hidx : p.keys[(pickBy aKeyGt q qs).1]? =
        some (pickBy aKeyGt q qs).2 := by
      rw [show (pickBy aKeyGt q qs).1 = j by omega]
      exact hj2
    have hmem2 : (pickBy aKeyGt q qs).2 ∈ p.keys := by
      rcases List.getElem?_eq_some.mp hidx with ⟨hlt, hEq⟩
      exact hEq ▸ List.getElem_mem hlt
    have hmapref : (updByHash (fun k : AKey => k.hash)
        (fun k =>
          { k with
            rateLimitedAt := now
            rateLimitedUntil := max k.rateLimitedUntil (now + KEY_REUSE_DELAY) })
        (pickBy aKeyGt q qs).2.hash
        (modifyIdx (fun k => { k with lastUsed := now }) p.keys
          (pickBy aKeyGt q qs).1)).map refView =
        p.keys.map refView := by
      rw [updByHash_map_view refView _ _ (by intro a; rfl),
        modifyIdx_map_view refView _ (by intro a; rfl)]
    rcases map_view_getElem? refView hmapref.symm hidx with ⟨b, hb1, hb2⟩
    have hsnapb : snap = b := by
      have hsnap2 := Except.ok.inj hsnap
      rw [← hsnap2, List.getD_eq_getElem?_getD, hb1]
      rfl
    have hkeys1 : p1.keys = updByHash (fun k : AKey => k.hash)
        (fun k =>
          { k with
            rateLimitedAt := now
            rateLimitedUntil := max k.rateLimitedUntil (now + KEY_REUSE_DELAY) })
        (pickBy aKeyGt q qs).2.hash
        (modifyIdx (fun k => { k with lastUsed := now }) p.keys
          (pickBy aKeyGt q qs).1) := by
      rw [← hp1]
    have hstore1 : p1.store = p.store := by rw [← hp1]
    have hhash : p1.keys.map (fun k => k.hash) = p.keys.map (fun k => k.hash) := by
      have hcp := congrArg (List.map Prod.fst) (hkeys1 ▸ hmapref)
      simpa [List.map_map, Function.comp, refView] using hcp
    have hnd1 : (p1.keys.map (fun k => k.hash)).Nodup := by rw [hhash]; exact hnd
    have hb1k : p1.keys[(pickBy aKeyGt q qs).1]? =
        some b := by rw [hkeys1]; exact hb1
    have hfind : p1.keys.find? (fun j => j.hash == b.hash) = some b :=
      find?_of_nodup_getElem? (fun k : AKey => k.hash) hnd1 hb1k
    have hfind2 : p1.keys.find? (fun j => j.hash == snap.hash) = some snap := by
      rw [hsnapb]; exact hfind
    have hrefsnap : snap.usageRef =
        (pickBy aKeyGt q qs).2.usageRef := by
      rw [hsnapb]
      exact congrArg Prod.snd hb2
    have hreflt : snap.usageRef < p.store.length := by
      rw [hrefsnap]
      exact href _ hmem2
    show viewUsage (aIncrementUsage p1 snap.hash fam u) snap fam = _
    unfold aIncrementUsage
    rw [hfind2]
    unfold viewUsage
    simp only [hstore1]
    have hmod : (modifyIdx (bumpUsage fam u) p.store snap.usageRef).getD
        snap.usageRef [] = bumpUsage fam u (p.store.getD snap.usageRef []) := by
      rw [List.getD_eq_getElem?_getD, List.getD_eq_getElem?_getD,
        modifyIdx_getElem?_self]
      rcases List.getElem?_eq_some.mp
        (List.getElem?_eq_getElem hreflt) with ⟨hlt, _⟩
      rw [List.getElem?_eq_getElem hreflt]
      rfl
    rw [hmod]
    exact lookupUsage_bumpUsage fam u (p.store.getD snap.usageRef [])


/-- C9 amended witness: the sharing statement at the concrete one-key
pool. -/
theorem c9_shallow_snapshot_witness :
    viewUsage (aIncrementUsage c9Run.2 c9Snap.hash "familyA" ⟨10, 5⟩) c9Snap
        "familyA" =
      ⟨(viewUsage c9Run.2 c9Snap "familyA").input + 10,
       (viewUsage c9Run.2 c9Snap "familyA").output + 5⟩ :=
  c9_shallow_snapshot c9Pool "m" 5 c9Snap c9Run.2 "familyA" ⟨10, 5⟩
    (by decide) (by decide) (by rfl)


def c6Pool : Pool :=
  ⟨[{ mkKey "sa" "A" with balance := some 5 },
    { mkKey "sb" "B" with balance := some 10 }]⟩

/-- The snapshot `get` returns on `c6Pool` at time 0: key B stamped with
the reuse-delay throttle. -/
def c6snap : OpenrouterKey :=
  { mkKey "sb" "B" with balance := some 10, rateLimitedUntil := 500 }

def c6BadPool : Pool :=
  ⟨[{ mkKey "sa" "A" with balance := some 10 }, mkKey "sb" "B"]⟩

/-- C6 counterexample: the balance of a key the checker has not yet
updated is `undefined`, and the JS comparison
`prev.balance > current.balance` is false whenever either side is
`undefined`, so the reduce replaces the accumulator with the unchecked
key: on a pool holding a checked key with balance 10 dollars followed by
an unchecked key, `get` for a paid model returns the unchecked key,
which has no balance, even though the balance-10 key is eligible — the
returned key's balance is not maximal among the eligible keys. -/
theorem c6_unchecked_key_beats_balance :
    ((get c6BadPool "anthropic/claude-3-opus" 0).1.toOption.map
        (fun k => (k.hash, k.balance)) = some ("B", (none : Option Int)))
    ∧ ((0, { mkKey "sa" "A" with balance := some 10 }) ∈
        eligiblePairs c6BadPool.keys "anthropic/claude-3-opus")
    ∧ balGt (some 10) none = false := by
  decide

/-- C6 (amended): on the concrete two-key pool with paid balances 5 and
10 dollars `get` for a paid model deterministically returns the
balance-10 key, and in general the returned key's balance is maximal
among the eligible keys whenever every eligible key carries a defined
balance; with an undefined (never-checked) balance among the eligible
keys the reduce can instead return that unchecked key. -/
theorem c6_highest_balance_defined :
    (∀ (p : Pool) (model : String) (now : Nat) (k : OpenrouterKey),
      (∀ q ∈ eligiblePairs p.keys model, q.2.balance.isSome = true) →
      (get p model now).1 = Except.ok k →
      k.balance.isSome = true ∧
      ∀ q ∈ eligiblePairs p.keys model, ∀ x y : Int,
        q.2.balance = some x → k.balance = some y → x ≤ y)
    ∧ ((get c6Pool "anthropic/claude-3-opus" 0).1.toOption.map
        (fun k => (k.hash, k.balance)) = some ("B", some (10 : Int))) := by
  constructor
  · intro p model now k hdef hk
    cases e : eligiblePairs p.keys model with
    | nil => unfold get at hk; rw [e] at hk; cases hk
    | cons q0 qs0 =>
      rcases get_cons_spec p model now e with ⟨snap, hs, hcore⟩
      have hks : k = snap := by rw [hk] at hs; exact Except.ok.inj hs
      have hbal : k.balance = (pickBy keyGt q0 qs0).2.balance := by
        rw [hks]; exact congrArg KeyCore.balance hcore
      have hq0 : (q0.2.balance).isSome = true :=
        hdef q0 (by rw [e]; exact List.mem_cons_self q0 qs0)
      have hqs0 : ∀ a ∈ qs0,
          ((fun r : Nat × OpenrouterKey => r.2.balance) a).isSome = true :=
        fun a ha => hdef a (by rw [e]; exact List.mem_cons_of_mem q0 ha)
      rcases pickBy_optMax (fun r : Nat × OpenrouterKey => r.2.balance) keyGt
        (fun a b => rfl) qs0 q0 hqs0 hq0 with ⟨hS, hmax⟩
      constructor
      · rw [hbal]; exact hS
      · intro q hq x y hx hy
        exact hmax q hq x y hx (by rw [← hbal]; exact hy)
  · decide

/-- C6 witness: the defined-balance maximality statement applied at the
concrete two-key pool: the returned key holds a balance, and the
eligible balance-5 key is bounded by the returned balance of 10. -/
theorem c6_highest_balance_defined_witness :
    c6snap.balance.isSome = true ∧ ((5 : Int) ≤ (10 : Int)) :=
  ⟨(c6_highest_balance_defined.1 c6Pool "anthropic/claude-3-opus" 0 c6snap
      (by decide) (by rfl)).1,
   (c6_highest_balance_defined.1 c6Pool "anthropic/claude-3-opus" 0 c6snap
      (by decide) (by rfl)).2
     (0, { mkKey "sa" "A" with balance := some 5 }) (by decide) 5 10 rfl (by rfl)⟩

end Openrouter
